import Mathlib

/-!
# market-data-service: the two-mutex counter of `parallel.cpp` and the walk split of `threaded.cpp`

`parallel.cpp` runs two threads, `foo1` and `foo2`, that each increment the global `coun`
`lim` times under the two mutexes `m1` and `m2`, taken with `try_lock` in opposite orders and
released again when the second `try_lock` fails.

The embedding is a small-step interleaving semantics.  Every `try_lock` and every `unlock` is
one atomic step.  `coun` is a plain `int`, so `++coun` is not atomic: it is two steps, the load
of `coun` into a register of the thread and the store of that register plus one, and steps of
the other thread may come between them; that no increment is lost is therefore a consequence
of the locking, not of the model.  The `for` test and the `break; ++i` are steps of their own
that touch only the thread's private `i`.  A mutex is
modelled by its owner (`none` when free).  `std::mutex::try_lock` is allowed by the C++ standard
to fail although the mutex is free; every step therefore carries a flag `spur` that forces such a
failure, and the results below hold whether or not the flag is ever used.

`coun` and `i` are `int`s in the source; overflow of a signed `int` is undefined, so the model
keeps their mathematical values; the overflow theorem below shows that for the source's `lim`
they never leave the range of `int`.
-/

/-! ## Model of `parallel.cpp` -/

namespace Parallel

/-- The two threads started by `main`: `A` runs `foo1`, `B` runs `foo2`. -/
inductive Worker
  | A
  | B
  deriving DecidableEq, Repr

/-- The two global mutexes. -/
inductive Mutex
  | m1
  | m2
  deriving DecidableEq, Repr

/-- Program points of `foo1` (lines 13-27) and `foo2` (lines 33-47); both functions have the
same shape.  `forTest` is the test `i < lim` of the `for`, `tryFirst` the outer `if (try_lock)`
at the top of `while (true)`, `trySecond` the inner one, `incr` the load of `coun` that begins
`++coun`, `incrStore` the store that ends it, `unlockFirst` and
`unlockSecond` the two `unlock`s of the success branch, `brk` the `break` followed by the `++i`
of the `for`, `retreat` the `unlock` of the `else` branch, `done` the return. -/
inductive PC
  | forTest
  | tryFirst
  | trySecond
  | incr
  | incrStore
  | unlockFirst
  | unlockSecond
  | brk
  | retreat
  | done
  deriving DecidableEq, Repr

/-- One statement together with the program points control goes to afterwards. -/
inductive Instr
  | forLoop (body exit : PC)
  | tryLock (m : Mutex) (ok fail : PC)
  | loadCoun (next : PC)
  | storeCoun (next : PC)
  | unlock (m : Mutex) (next : PC)
  | breakFor (next : PC)
  | ret
  deriving DecidableEq, Repr

/-- Whether a statement is part of `++coun` (its load or its store). -/
def Instr.isInc : Instr → Bool
  | .loadCoun _ => true
  | .storeCoun _ => true
  | _ => false

/-- Whether a statement is the store that completes `++coun`. -/
def Instr.isStore : Instr → Bool
  | .storeCoun _ => true
  | _ => false

/-- The body of `foo1`, statement by statement (`parallel.cpp` lines 13-27). -/
def foo1 : PC → Instr
  | .forTest => .forLoop .tryFirst .done
  | .tryFirst => .tryLock .m1 .trySecond .tryFirst
  | .trySecond => .tryLock .m2 .incr .retreat
  | .incr => .loadCoun .incrStore
  | .incrStore => .storeCoun .unlockFirst
  | .unlockFirst => .unlock .m1 .unlockSecond
  | .unlockSecond => .unlock .m2 .brk
  | .brk => .breakFor .forTest
  | .retreat => .unlock .m1 .tryFirst
  | .done => .ret

/-- The body of `foo2`, statement by statement (`parallel.cpp` lines 33-47). -/
def foo2 : PC → Instr
  | .forTest => .forLoop .tryFirst .done
  | .tryFirst => .tryLock .m2 .trySecond .tryFirst
  | .trySecond => .tryLock .m1 .incr .retreat
  | .incr => .loadCoun .incrStore
  | .incrStore => .storeCoun .unlockFirst
  | .unlockFirst => .unlock .m2 .unlockSecond
  | .unlockSecond => .unlock .m1 .brk
  | .brk => .breakFor .forTest
  | .retreat => .unlock .m2 .tryFirst
  | .done => .ret

/-- The function each thread runs (`thread t1(foo1); thread t2(foo2);`). -/
def code : Worker → PC → Instr
  | .A => foo1
  | .B => foo2

/-- The shared variables `coun`, `m1`, `m2`, each thread's program point and loop index, and
the register into which each thread loads `coun` when it executes `++coun`. -/
structure State where
  pcA : PC
  pcB : PC
  iA : Nat
  iB : Nat
  own1 : Option Worker
  own2 : Option Worker
  coun : Nat
  tmpA : Nat
  tmpB : Nat
  deriving DecidableEq, Repr

/-- The program point of a thread. -/
def State.pc (s : State) : Worker → PC
  | .A => s.pcA
  | .B => s.pcB

/-- The loop index `i` of a thread. -/
def State.idx (s : State) : Worker → Nat
  | .A => s.iA
  | .B => s.iB

/-- The register of a thread. -/
def State.tmp (s : State) : Worker → Nat
  | .A => s.tmpA
  | .B => s.tmpB

/-- The thread that holds a mutex, if any. -/
def State.owner (s : State) : Mutex → Option Worker
  | .m1 => s.own1
  | .m2 => s.own2

/-- Move a thread to another program point. -/
def State.setPc (s : State) (w : Worker) (p : PC) : State :=
  match w with
  | .A => { s with pcA := p }
  | .B => { s with pcB := p }

/-- Assign a thread's loop index. -/
def State.setIdx (s : State) (w : Worker) (n : Nat) : State :=
  match w with
  | .A => { s with iA := n }
  | .B => { s with iB := n }

/-- Assign a thread's register. -/
def State.setTmp (s : State) (w : Worker) (n : Nat) : State :=
  match w with
  | .A => { s with tmpA := n }
  | .B => { s with tmpB := n }

/-- Assign the owner of a mutex. -/
def State.setOwner (s : State) (m : Mutex) (o : Option Worker) : State :=
  match m with
  | .m1 => { s with own1 := o }
  | .m2 => { s with own2 := o }

/-- Both threads at the start of their function, `coun = 0`, both mutexes free. -/
def init : State :=
  { pcA := .forTest, pcB := .forTest, iA := 0, iB := 0, own1 := none, own2 := none,
    coun := 0, tmpA := 0, tmpB := 0 }

/-- The iteration budget of the source (`#define lim 10000000`). -/
def lim : Nat := 10000000

/-- Effect of one statement executed by thread `w`; `N` is the iteration budget (`lim` in the
source) and `spur` forces a `try_lock` to fail although the mutex is free. -/
def exec (N : Nat) (ins : Instr) (w : Worker) (spur : Bool) (s : State) : State :=
  match ins with
  | .forLoop body exit => if s.idx w < N then s.setPc w body else s.setPc w exit
  | .tryLock m ok fail =>
      if s.owner m = none ∧ spur = false then (s.setOwner m (some w)).setPc w ok
      else s.setPc w fail
  | .loadCoun next => (s.setTmp w s.coun).setPc w next
  | .storeCoun next => { s with coun := s.tmp w + 1 }.setPc w next
  | .unlock m next => (s.setOwner m none).setPc w next
  | .breakFor next => (s.setIdx w (s.idx w + 1)).setPc w next
  | .ret => s

/-- One step of thread `w`: execute the statement at its program point. -/
def step (N : Nat) (w : Worker) (spur : Bool) (s : State) : State :=
  exec N (code w (s.pc w)) w spur s

/-- The step relation of the two interleaved threads: any thread that has not returned may
take its next step. -/
def Step (N : Nat) (s t : State) : Prop :=
  ∃ w spur, s.pc w ≠ PC.done ∧ t = step N w spur s

/-- The step relation when no `try_lock` fails spuriously: a `try_lock` fails only on a held
mutex.  Every such step is a step of `Step`. -/
def StepStrict (N : Nat) (s t : State) : Prop :=
  ∃ w, s.pc w ≠ PC.done ∧ t = step N w false s

/-- States reachable from `init` by interleaving steps of the two threads. -/
def Reachable (N : Nat) (s : State) : Prop :=
  Relation.ReflTransGen (Step N) init s

/-- Run a schedule: a list of (thread, spurious-failure flag) pairs, executed left to right. -/
def run (N : Nat) : State → List (Worker × Bool) → State
  | s, [] => s
  | s, l :: ls => run N (step N l.1 l.2 s) ls

/-- Number of `++coun` statements thread `w` completes (stores) along a schedule started
in `s`. -/
def incrs (N : Nat) (w : Worker) : State → List (Worker × Bool) → Nat
  | _, [] => 0
  | s, l :: ls =>
      (if l.1 = w ∧ (code w (s.pc w)).isStore = true then 1 else 0)
        + incrs N w (step N l.1 l.2 s) ls

/-- Thread `w` holds mutex `m`. -/
def State.holds (s : State) (w : Worker) (m : Mutex) : Prop :=
  s.owner m = some w

instance (s : State) (w : Worker) (m : Mutex) : Decidable (s.holds w m) := by
  unfold State.holds; infer_instance

/-- Both threads have left their `for` loop: the state `main` reads after the two `join`s. -/
def State.finished (s : State) : Prop :=
  s.pcA = PC.done ∧ s.pcB = PC.done

instance (s : State) : Decidable s.finished := by
  unfold State.finished; infer_instance

/-- The mutex a thread tries first: `m1` in `foo1`, `m2` in `foo2`. -/
def first : Worker → Mutex
  | .A => .m1
  | .B => .m2

/-- The mutex a thread tries second: `m2` in `foo1`, `m1` in `foo2`. -/
def second : Worker → Mutex
  | .A => .m2
  | .B => .m1

/-- Program points at which a thread holds the mutex it tries first. -/
def heldFirst : PC → Bool
  | .trySecond | .retreat | .incr | .incrStore | .unlockFirst => true
  | _ => false

/-- Program points at which a thread holds the mutex it tries second. -/
def heldSecond : PC → Bool
  | .incr | .incrStore | .unlockFirst | .unlockSecond => true
  | _ => false

/-- One if the thread has completed `++coun` in the current iteration and not yet `++i`. -/
def inflight : PC → Nat
  | .unlockFirst | .unlockSecond | .brk => 1
  | _ => 0

/-- Range of the loop index at each program point. -/
def idxOK (N : Nat) : PC → Nat → Prop
  | .forTest, i => i ≤ N
  | .done, i => i = N
  | _, i => i < N

/-- Whether a thread stands between the load and the store of `++coun`. -/
def atStore : PC → Bool
  | .incrStore => true
  | _ => false

/-- The inductive invariant: program points determine who holds which mutex, the loop indices
are in range, `coun` counts the completed iterations plus the increments in flight, and a
thread between the load and the store of `++coun` has the current value of `coun` in its
register. -/
structure Inv (N : Nat) (s : State) : Prop where
  a1 : s.own1 = some Worker.A ↔ heldFirst s.pcA = true
  a2 : s.own2 = some Worker.A ↔ heldSecond s.pcA = true
  b2 : s.own2 = some Worker.B ↔ heldFirst s.pcB = true
  b1 : s.own1 = some Worker.B ↔ heldSecond s.pcB = true
  ia : idxOK N s.pcA s.iA
  ib : idxOK N s.pcB s.iB
  c : s.coun = s.iA + s.iB + inflight s.pcA + inflight s.pcB
  ta : atStore s.pcA = true → s.tmpA = s.coun
  tb : atStore s.pcB = true → s.tmpB = s.coun

/-- The other thread. -/
def other : Worker → Worker
  | .A => .B
  | .B => .A

/-- A try_lock fails when the mutex is held or the failure is spurious. -/
def tryFails (s : State) (m : Mutex) (spur : Bool) : Prop :=
  s.owner m ≠ none ∨ spur = true

/-- Program points at which a thread holds no mutex. -/
def holdsNone (p : PC) : Prop :=
  heldFirst p = false ∧ heldSecond p = false

/-- Number of own steps a thread needs to leave its loop when no `try_lock` fails. -/
def rank (N : Nat) : PC → Nat → Nat
  | .forTest, i => 8 * (N - i) + 1
  | .tryFirst, i => 8 * (N - i)
  | .trySecond, i => 8 * (N - i) - 1
  | .incr, i => 8 * (N - i) - 2
  | .incrStore, i => 8 * (N - i) - 3
  | .unlockFirst, i => 8 * (N - i) - 4
  | .unlockSecond, i => 8 * (N - i) - 5
  | .brk, i => 8 * (N - i) - 6
  | .retreat, i => 8 * (N - i) + 1
  | .done, _ => 0

/-- Number of own steps after which a thread holds no mutex, at the latest. -/
def drainRank : PC → Nat
  | .trySecond => 5
  | .incr => 4
  | .incrStore => 3
  | .unlockFirst => 2
  | .unlockSecond => 1
  | .retreat => 1
  | _ => 0

/-- The state in which thread `A` has just taken `m1` and thread `B` has just taken `m2`, each
about to try its second mutex. -/
def crossed : State :=
  { pcA := .trySecond, pcB := .trySecond, iA := 0, iB := 0,
    own1 := some .A, own2 := some .B, coun := 0, tmpA := 0, tmpB := 0 }

/-- The schedule `A, A, B, B` that leads from `init` to `crossed` when `1 ≤ N`. -/
def toCrossed : List (Worker × Bool) :=
  [(.A, false), (.A, false), (.B, false), (.B, false)]

/-- The thread that moves at step `n` of the round-robin schedule `A, B, A, B, ...`. -/
def turn (n : Nat) : Worker :=
  if n % 2 = 0 then .A else .B

/-- The six states of the retreat cycle: both threads take their first mutex, both fail on the
second, both release. -/
def livelockCycle : Nat → State
  | 0 => { pcA := .tryFirst, pcB := .tryFirst, iA := 0, iB := 0,
           own1 := none, own2 := none, coun := 0, tmpA := 0, tmpB := 0 }
  | 1 => { pcA := .trySecond, pcB := .tryFirst, iA := 0, iB := 0,
           own1 := some .A, own2 := none, coun := 0, tmpA := 0, tmpB := 0 }
  | 2 => { pcA := .trySecond, pcB := .trySecond, iA := 0, iB := 0,
           own1 := some .A, own2 := some .B, coun := 0, tmpA := 0, tmpB := 0 }
  | 3 => { pcA := .retreat, pcB := .trySecond, iA := 0, iB := 0,
           own1 := some .A, own2 := some .B, coun := 0, tmpA := 0, tmpB := 0 }
  | 4 => { pcA := .retreat, pcB := .retreat, iA := 0, iB := 0,
           own1 := some .A, own2 := some .B, coun := 0, tmpA := 0, tmpB := 0 }
  | _ => { pcA := .tryFirst, pcB := .retreat, iA := 0, iB := 0,
           own1 := none, own2 := some .B, coun := 0, tmpA := 0, tmpB := 0 }

/-- An infinite execution: two steps into the loops, then the retreat cycle forever. -/
def livelock : Nat → State
  | 0 => init
  | 1 => { pcA := .tryFirst, pcB := .forTest, iA := 0, iB := 0,
           own1 := none, own2 := none, coun := 0, tmpA := 0, tmpB := 0 }
  | n + 2 => livelockCycle (n % 6)

/-- Modelled from the spec: `foo1` with the release-on-second-failure step removed, which is
not in the repository (`parallel.cpp` only records the outcome in its closing comment).  A
thread whose second `try_lock` fails keeps its first mutex and retries only the second. -/
def foo1NoRetreat : PC → Instr
  | .trySecond => .tryLock .m2 .incr .trySecond
  | p => foo1 p

/-- Modelled from the spec: `foo2` with the release-on-second-failure step removed. -/
def foo2NoRetreat : PC → Instr
  | .trySecond => .tryLock .m1 .incr .trySecond
  | p => foo2 p

/-- Modelled from the spec: the functions the two threads run in the variant without release. -/
def codeNoRetreat : Worker → PC → Instr
  | .A => foo1NoRetreat
  | .B => foo2NoRetreat

/-- Modelled from the spec: one step of a thread in the variant without release. -/
def stepNoRetreat (N : Nat) (w : Worker) (spur : Bool) (s : State) : State :=
  exec N (codeNoRetreat w (s.pc w)) w spur s

/-- Modelled from the spec: the step relation of the variant without release. -/
def StepNoRetreat (N : Nat) (s t : State) : Prop :=
  ∃ w spur, s.pc w ≠ PC.done ∧ t = stepNoRetreat N w spur s

/-- The schedule in which thread `A` runs its single iteration (for `N = 1`) and returns, then
thread `B` does the same: nine steps each. -/
def fullRun : List (Worker × Bool) :=
  List.replicate 9 (Worker.A, false) ++ List.replicate 9 (Worker.B, false)

/-- The schedule in which thread `A` takes both mutexes and stands at the load of `++coun`. -/
def toIncr : List (Worker × Bool) :=
  [(.A, false), (.A, false), (.A, false)]

end Parallel

/-! ## Model of `threaded.cpp` -/

namespace Threaded

/-- The number of random walks the program is meant to average (`#define walk_ub 1000000`). -/
def walk_ub : Nat := 1000000

/-- What `main` of `threaded.cpp` has computed when it prints: `walks` is the number of prices
that were added to `ans`, `divisor` the number `ans` is divided by in `cout << ans / walk_ub`.
The prices themselves are random `double`s and stay outside the model. -/
structure Output where
  walks : Nat
  divisor : Nat
  deriving DecidableEq, Repr

/-- The fault of `int iter = walk_ub / nT` when `nT` is zero. -/
inductive Fault
  | divisionByZero
  deriving DecidableEq, Repr

/-- One call of `random_walk`: under the lock, one price is added to `ans`. -/
def random_walk (walks : Nat) : Nat :=
  walks + 1

/-- The loop of `helper`: `t` calls of `random_walk`. -/
def helper (t : Nat) (walks : Nat) : Nat :=
  (List.range t).foldl (fun acc _ => random_walk acc) walks

/-- The function `main` of `threaded.cpp` for the thread count `nT` returned by
`hardware_concurrency`: `nT` threads each run `helper (walk_ub / nT)`; the threads only add to
`ans` under the lock, so the number of additions does not depend on how they interleave. -/
def main (nT : Nat) : Except Fault Output :=
  if nT = 0 then .error .divisionByZero
  else
    let iter := walk_ub / nT
    .ok { walks := (List.range nT).foldl (fun acc _ => helper iter acc) 0, divisor := walk_ub }

end Threaded

/-! ## Theorems about `parallel.cpp` -/

namespace Parallel

theorem inv_init (N : Nat) : Inv N init := by
  constructor <;> simp [init, heldFirst, heldSecond, idxOK, inflight, atStore]

theorem atStore_heldFirst {p : PC} (h : atStore p = true) : heldFirst p = true := by
  cases p <;> simp [atStore, heldFirst] at h ⊢

theorem inv_iff (N : Nat) (s : State) :
    Inv N s ↔
      (s.own1 = some Worker.A ↔ heldFirst s.pcA = true) ∧
      (s.own2 = some Worker.A ↔ heldSecond s.pcA = true) ∧
      (s.own2 = some Worker.B ↔ heldFirst s.pcB = true) ∧
      (s.own1 = some Worker.B ↔ heldSecond s.pcB = true) ∧
      idxOK N s.pcA s.iA ∧ idxOK N s.pcB s.iB ∧
      s.coun = s.iA + s.iB + inflight s.pcA + inflight s.pcB ∧
      (atStore s.pcA = true → s.tmpA = s.coun) ∧
      (atStore s.pcB = true → s.tmpB = s.coun) :=
  ⟨fun h => ⟨h.a1, h.a2, h.b2, h.b1, h.ia, h.ib, h.c, h.ta, h.tb⟩,
    fun ⟨h1, h2, h3, h4, h5, h6, h7, h8, h9⟩ => ⟨h1, h2, h3, h4, h5, h6, h7, h8, h9⟩⟩

theorem inv_step_A {N : Nat} {s : State} (h : Inv N s) (spur : Bool) :
    Inv N (step N Worker.A spur s) := by
  obtain ⟨pcA, pcB, iA, iB, o1, o2, c, tA, tB⟩ := s
  obtain ⟨a1, a2, b2, b1, ia, ib, hc, ta, tb⟩ := h
  have hl := @atStore_heldFirst pcB
  rw [inv_iff]
  cases pcA <;>
    simp only [step, exec, code, foo1, State.pc, State.idx, State.owner, State.setPc,
      State.setIdx, State.setOwner, State.tmp, State.setTmp, heldFirst, heldSecond, idxOK,
      inflight, atStore] at * <;>
    (try split) <;>
    simp_all [heldFirst, heldSecond, idxOK, inflight, atStore] <;>
    omega

theorem inv_step_B {N : Nat} {s : State} (h : Inv N s) (spur : Bool) :
    Inv N (step N Worker.B spur s) := by
  obtain ⟨pcA, pcB, iA, iB, o1, o2, c, tA, tB⟩ := s
  obtain ⟨a1, a2, b2, b1, ia, ib, hc, ta, tb⟩ := h
  have hl := @atStore_heldFirst pcA
  rw [inv_iff]
  cases pcB <;>
    simp only [step, exec, code, foo2, State.pc, State.idx, State.owner, State.setPc,
      State.setIdx, State.setOwner, State.tmp, State.setTmp, heldFirst, heldSecond, idxOK,
      inflight, atStore] at * <;>
    (try split) <;>
    simp_all [heldFirst, heldSecond, idxOK, inflight, atStore] <;>
    omega

theorem inv_step {N : Nat} {s : State} (h : Inv N s) (w : Worker) (spur : Bool) :
    Inv N (step N w spur s) := by
  cases w
  · exact inv_step_A h spur
  · exact inv_step_B h spur

theorem step_of_done {N : Nat} {s : State} {w : Worker} (h : s.pc w = PC.done) (spur : Bool) :
    step N w spur s = s := by
  cases w <;> simp only [State.pc] at h <;> simp [step, exec, code, foo1, foo2, State.pc, h]

theorem reachable_inv {N : Nat} {s : State} (h : Reachable N s) : Inv N s := by
  induction h with
  | refl => exact inv_init N
  | tail _ hst ih =>
    obtain ⟨w, spur, _, rfl⟩ := hst
    exact inv_step ih w spur

theorem reachable_step {N : Nat} {s : State} (h : Reachable N s) (w : Worker) (spur : Bool) :
    Reachable N (step N w spur s) := by
  by_cases hd : s.pc w = PC.done
  · rw [step_of_done hd]; exact h
  · exact Relation.ReflTransGen.tail h ⟨w, spur, hd, rfl⟩

theorem reachable_run_from {N : Nat} {s : State} (h : Reachable N s) (sched : List (Worker × Bool)) :
    Reachable N (run N s sched) := by
  induction sched generalizing s with
  | nil => exact h
  | cons l ls ih => exact ih (reachable_step h l.1 l.2)

theorem reachable_run (N : Nat) (sched : List (Worker × Bool)) :
    Reachable N (run N init sched) :=
  reachable_run_from Relation.ReflTransGen.refl sched

theorem reachable_iff_run (N : Nat) (s : State) :
    Reachable N s ↔ ∃ sched, run N init sched = s := by
  constructor
  · intro h
    induction h with
    | refl => exact ⟨[], rfl⟩
    | tail _ hst ih =>
      obtain ⟨w, spur, _, rfl⟩ := hst
      obtain ⟨sched, rfl⟩ := ih
      refine ⟨sched ++ [(w, spur)], ?_⟩
      have key : ∀ (t : State) (l : List (Worker × Bool)),
          run N t (l ++ [(w, spur)]) = step N w spur (run N t l) := by
        intro t l
        induction l generalizing t with
        | nil => rfl
        | cons a l ih => exact ih _
      exact key _ _
  · rintro ⟨sched, rfl⟩
    exact reachable_run N sched

theorem inv_holds_first {N : Nat} {s : State} (h : Inv N s) (w : Worker) :
    s.holds w (first w) ↔ heldFirst (s.pc w) = true := by
  cases w
  · exact h.a1
  · exact h.b2

theorem inv_holds_second {N : Nat} {s : State} (h : Inv N s) (w : Worker) :
    s.holds w (second w) ↔ heldSecond (s.pc w) = true := by
  cases w
  · exact h.a2
  · exact h.b1

theorem inv_idx {N : Nat} {s : State} (h : Inv N s) (w : Worker) :
    idxOK N (s.pc w) (s.idx w) := by
  cases w
  · exact h.ia
  · exact h.ib

/-- C1: in every reachable state at most one thread holds both `m1` and `m2`, every step that
executes `++coun` (its load of `coun` as well as its store) is taken by a thread that holds
both mutexes at that moment, and only such steps change `coun`, each time by exactly one. -/
theorem mutual_exclusion (N : Nat) (s : State) (h : Reachable N s) :
    (∀ w v : Worker, (s.holds w Mutex.m1 ∧ s.holds w Mutex.m2) →
        (s.holds v Mutex.m1 ∧ s.holds v Mutex.m2) → w = v) ∧
    (∀ w : Worker, (code w (s.pc w)).isInc = true →
        s.holds w Mutex.m1 ∧ s.holds w Mutex.m2) ∧
    (∀ (w : Worker) (spur : Bool), (step N w spur s).coun ≠ s.coun →
        (code w (s.pc w)).isInc = true ∧ (step N w spur s).coun = s.coun + 1) := by
  have hi := (reachable_inv h)
  obtain ⟨pcA, pcB, iA, iB, o1, o2, c, tA, tB⟩ := s
  obtain ⟨a1, a2, b2, b1, ia, ib, hc, ta, tb⟩ := hi
  refine ⟨?_, ?_, ?_⟩
  · intro w v hw hv
    simp only [State.holds, State.owner] at hw hv
    cases w <;> cases v <;> simp_all
  · intro w hw
    cases w
    · cases pcA <;> simp_all [code, foo1, Instr.isInc, State.pc, State.holds, State.owner,
        heldFirst, heldSecond]
    · cases pcB <;> simp_all [code, foo2, Instr.isInc, State.pc, State.holds, State.owner,
        heldFirst, heldSecond]
  · intro w spur hne
    simp only [atStore] at ta tb
    cases w
    · cases pcA <;>
        simp only [step, exec, code, foo1, State.pc, State.idx, State.owner, State.setPc,
          State.setIdx, State.setOwner, State.tmp, State.setTmp, Instr.isInc] at hne ⊢ <;>
        (try split at hne) <;> simp_all
    · cases pcB <;>
        simp only [step, exec, code, foo2, State.pc, State.idx, State.owner, State.setPc,
          State.setIdx, State.setOwner, State.tmp, State.setTmp, Instr.isInc] at hne ⊢ <;>
        (try split at hne) <;> simp_all

/-- C2: for every iteration budget `N`, every reachable state in which both threads have left
their `for` loop has `coun = 2 * N`, so the value `main` prints is the same for all
interleavings.  `++coun` is a load followed by a store; no update is lost because a thread
between the two holds both mutexes, so `coun` is still the value it loaded. -/
theorem final_count (N : Nat) (s : State) (h : Reachable N s) (hf : s.finished) :
    s.coun = 2 * N ∧ ∀ t : State, Reachable N t → t.finished → t.coun = s.coun := by
  have key : ∀ t : State, Reachable N t → t.finished → t.coun = 2 * N := by
    intro t ht htf
    obtain ⟨_, _, _, _, ia, ib, hc, _, _⟩ := (reachable_inv ht)
    obtain ⟨fa, fb⟩ := htf
    rw [fa] at ia hc
    rw [fb] at ib hc
    simp only [idxOK, inflight] at ia ib hc
    omega
  exact ⟨key s h hf, fun t ht htf => (key t ht htf).trans (key s h hf).symm⟩

theorem incrs_step (N : Nat) (w : Worker) (l : Worker × Bool) (s : State) :
    (if l.1 = w ∧ (code w (s.pc w)).isStore = true then 1 else 0)
        + (s.idx w + inflight (s.pc w))
      = (step N l.1 l.2 s).idx w + inflight ((step N l.1 l.2 s).pc w) := by
  obtain ⟨pcA, pcB, iA, iB, o1, o2, c, tA, tB⟩ := s
  obtain ⟨v, spur⟩ := l
  cases v <;> cases w
  · cases pcA <;>
      simp only [step, exec, code, foo1, State.pc, State.idx, State.owner, State.setPc,
        State.setIdx, State.setOwner, State.tmp, State.setTmp, Instr.isStore, inflight] <;>
      (try simp) <;> (try split_ifs) <;> (try simp) <;> (try omega)
  · cases pcA <;>
      simp only [step, exec, code, foo1, foo2, State.pc, State.idx, State.owner, State.setPc,
        State.setIdx, State.setOwner, State.tmp, State.setTmp, Instr.isStore, inflight] <;>
      (try simp) <;> (try split_ifs) <;> (try simp)
  · cases pcB <;>
      simp only [step, exec, code, foo1, foo2, State.pc, State.idx, State.owner, State.setPc,
        State.setIdx, State.setOwner, State.tmp, State.setTmp, Instr.isStore, inflight] <;>
      (try simp) <;> (try split_ifs) <;> (try simp)
  · cases pcB <;>
      simp only [step, exec, code, foo2, State.pc, State.idx, State.owner, State.setPc,
        State.setIdx, State.setOwner, State.tmp, State.setTmp, Instr.isStore, inflight] <;>
      (try simp) <;> (try split_ifs) <;> (try simp) <;> (try omega)

theorem incrs_run (N : Nat) (w : Worker) (s : State) (sched : List (Worker × Bool)) :
    incrs N w s sched + (s.idx w + inflight (s.pc w))
      = (run N s sched).idx w + inflight ((run N s sched).pc w) := by
  induction sched generalizing s with
  | nil => simp [incrs, run]
  | cons l ls ih =>
    have h1 := incrs_step N w l s
    have h2 := ih (step N l.1 l.2 s)
    simp only [incrs, run]
    omega

theorem coun_step {N : Nat} {s : State} (h : Inv N s) (l : Worker × Bool) :
    (step N l.1 l.2 s).coun = s.coun
      + (if l.1 = Worker.A ∧ (code Worker.A (s.pc Worker.A)).isStore = true then 1 else 0)
      + (if l.1 = Worker.B ∧ (code Worker.B (s.pc Worker.B)).isStore = true then 1 else 0) := by
  obtain ⟨pcA, pcB, iA, iB, o1, o2, c, tA, tB⟩ := s
  obtain ⟨a1, a2, b2, b1, ia, ib, hc, ta, tb⟩ := h
  obtain ⟨v, spur⟩ := l
  cases v
  · cases pcA <;>
      simp only [step, exec, code, foo1, State.pc, State.idx, State.owner, State.setPc,
        State.setIdx, State.setOwner, State.tmp, State.setTmp, Instr.isStore, atStore] at ta ⊢ <;>
      (try simp at ta ⊢) <;> (try split_ifs) <;> (try simp) <;> (try omega)
  · cases pcB <;>
      simp only [step, exec, code, foo2, State.pc, State.idx, State.owner, State.setPc,
        State.setIdx, State.setOwner, State.tmp, State.setTmp, Instr.isStore, atStore] at tb ⊢ <;>
      (try simp at tb ⊢) <;> (try split_ifs) <;> (try simp) <;> (try omega)

theorem coun_run {N : Nat} {s : State} (h : Inv N s) (sched : List (Worker × Bool)) :
    (run N s sched).coun = s.coun + incrs N Worker.A s sched + incrs N Worker.B s sched := by
  induction sched generalizing s with
  | nil => simp [incrs, run]
  | cons l ls ih =>
    have h1 := coun_step h l
    have h2 := ih (inv_step h l.1 l.2)
    simp only [incrs, run]
    omega

/-- C3: along every execution, the number of `++coun` a thread has completed equals its number
of completed `for` iterations `i`, plus one exactly while it is between its `++coun` and the
`break; ++i` that ends the current iteration; a thread that has left its loop has completed
`++coun` exactly `N` times; and `coun` is the sum of the two threads' numbers of completed
`++coun`: no store of one thread overwrites an increment of the other, because a thread
between the load and the store of `++coun` holds both mutexes. -/
theorem no_skipped_increments (N : Nat) (sched : List (Worker × Bool)) :
    (∀ w : Worker, incrs N w init sched
        = (run N init sched).idx w + inflight ((run N init sched).pc w)) ∧
    (∀ w : Worker, (run N init sched).pc w = PC.done → incrs N w init sched = N) ∧
    (run N init sched).coun = incrs N Worker.A init sched + incrs N Worker.B init sched := by
  have hcnt : ∀ w : Worker, incrs N w init sched
        = (run N init sched).idx w + inflight ((run N init sched).pc w) := by
    intro w
    have := incrs_run N w init sched
    cases w <;> simpa [init, State.idx, State.pc, inflight] using this
  refine ⟨hcnt, ?_, ?_⟩
  · intro w hw
    have hi := inv_idx (reachable_inv (reachable_run N sched)) w
    rw [hcnt w, hw]
    rw [hw] at hi
    simp only [idxOK] at hi
    simp [inflight, hi]
  · have := coun_run (inv_init N) sched
    simpa [init] using this

theorem idx_inflight_le {N : Nat} {p : PC} {i : Nat} (h : idxOK N p i) : i + inflight p ≤ N := by
  cases p <;> simp only [idxOK, inflight] at * <;> omega

theorem inv_coun_le {N : Nat} {s : State} (h : Inv N s) : s.coun ≤ 2 * N := by
  have ha := idx_inflight_le h.ia
  have hb := idx_inflight_le h.ib
  have hc := h.c
  omega

/-- C5: in every reachable state, a thread whose first `try_lock` succeeded (it is at its second
`try_lock`, holding its first mutex) and whose second `try_lock` fails moves to the `unlock` of the
`else` branch with nothing else changed; steps of the other thread leave it there; and its step
from there unlocks the first mutex and returns to the top of the `while` loop, after which it
holds neither mutex while `coun`, its loop index `i` and the other thread's lock holdings,
program point and index are unchanged. -/
theorem hold_and_retreat (N : Nat) (s : State) (h : Reachable N s) (w : Worker) :
    (s.pc w = PC.trySecond →
      s.holds w (first w) ∧
      code w PC.trySecond = Instr.tryLock (second w) PC.incr PC.retreat ∧
      ∀ spur : Bool, tryFails s (second w) spur → step N w spur s = s.setPc w PC.retreat) ∧
    (∀ spur : Bool, (step N (other w) spur s).pc w = s.pc w) ∧
    (s.pc w = PC.retreat →
      s.holds w (first w) ∧
      code w PC.retreat = Instr.unlock (first w) PC.tryFirst ∧
      ∀ spur : Bool,
        (step N w spur s).pc w = PC.tryFirst ∧
        (step N w spur s).owner (first w) = none ∧
        (∀ m : Mutex, ¬ (step N w spur s).holds w m) ∧
        (step N w spur s).coun = s.coun ∧
        (step N w spur s).idx w = s.idx w ∧
        (∀ m : Mutex, (step N w spur s).holds (other w) m ↔ s.holds (other w) m) ∧
        (step N w spur s).pc (other w) = s.pc (other w) ∧
        (step N w spur s).idx (other w) = s.idx (other w)) := by
  have hi := (reachable_inv h)
  obtain ⟨pcA, pcB, iA, iB, o1, o2, c, tA, tB⟩ := s
  obtain ⟨a1, a2, b2, b1, ia, ib, hc, ta, tb⟩ := hi
  refine ⟨?_, ?_, ?_⟩
  · intro hp
    cases w <;> simp only [State.pc] at hp <;> subst hp
    · refine ⟨by simpa [State.holds, State.owner, first, heldFirst] using a1, rfl, ?_⟩
      intro spur hf
      simp only [tryFails, second, State.owner] at hf
      simp only [step, exec, code, foo1, State.pc, State.owner, State.setPc, State.setOwner]
      rw [if_neg]
      rintro ⟨h1, h2⟩
      rcases hf with hf | hf
      · exact hf h1
      · rw [h2] at hf; cases hf
    · refine ⟨by simpa [State.holds, State.owner, first, heldFirst] using b2, rfl, ?_⟩
      intro spur hf
      simp only [tryFails, second, State.owner] at hf
      simp only [step, exec, code, foo2, State.pc, State.owner, State.setPc, State.setOwner]
      rw [if_neg]
      rintro ⟨h1, h2⟩
      rcases hf with hf | hf
      · exact hf h1
      · rw [h2] at hf; cases hf
  · intro spur
    cases w
    · cases pcB <;>
        simp only [other, step, exec, code, foo2, State.pc, State.idx, State.owner, State.setPc,
          State.setIdx, State.setOwner, State.tmp, State.setTmp] <;>
        (try split_ifs) <;> rfl
    · cases pcA <;>
        simp only [other, step, exec, code, foo1, State.pc, State.idx, State.owner, State.setPc,
          State.setIdx, State.setOwner, State.tmp, State.setTmp] <;>
        (try split_ifs) <;> rfl
  · intro hp
    cases w <;> simp only [State.pc] at hp <;> subst hp
    · simp only [heldFirst, heldSecond] at a1 a2
      refine ⟨by simpa [State.holds, State.owner, first] using a1, rfl, ?_⟩
      intro spur
      refine ⟨rfl, rfl, ?_, rfl, rfl, ?_, rfl, rfl⟩
      · intro m
        cases m <;>
          simp_all [step, exec, code, foo1, State.pc, State.owner, State.setPc, State.setOwner,
            State.holds]
      · intro m
        cases m <;>
          simp_all [step, exec, code, foo1, State.pc, State.owner, State.setPc, State.setOwner,
            State.holds, other]
    · simp only [heldFirst, heldSecond] at b1 b2
      refine ⟨by simpa [State.holds, State.owner, first] using b2, rfl, ?_⟩
      intro spur
      refine ⟨rfl, rfl, ?_, rfl, rfl, ?_, rfl, rfl⟩
      · intro m
        cases m <;>
          simp_all [step, exec, code, foo2, State.pc, State.owner, State.setPc, State.setOwner,
            State.holds]
      · intro m
        cases m <;>
          simp_all [step, exec, code, foo2, State.pc, State.owner, State.setPc, State.setOwner,
            State.holds, other]

/-- C8: in every reachable state, a thread about to execute `unlock` on a mutex holds that
mutex, a thread about to execute `try_lock` on a mutex does not already hold it, a thread that
has left its loop holds no mutex, and once both threads have left their loops both mutexes are
free. -/
theorem lock_usage_safe (N : Nat) (s : State) (h : Reachable N s) :
    (∀ (w : Worker) (m : Mutex) (next : PC),
        code w (s.pc w) = Instr.unlock m next → s.holds w m) ∧
    (∀ (w : Worker) (m : Mutex) (ok fail : PC),
        code w (s.pc w) = Instr.tryLock m ok fail → ¬ s.holds w m) ∧
    (∀ (w : Worker) (m : Mutex), s.pc w = PC.done → ¬ s.holds w m) ∧
    (s.finished → s.owner Mutex.m1 = none ∧ s.owner Mutex.m2 = none) := by
  have hi := (reachable_inv h)
  obtain ⟨pcA, pcB, iA, iB, o1, o2, c, tA, tB⟩ := s
  obtain ⟨a1, a2, b2, b1, ia, ib, hc, ta, tb⟩ := hi
  simp only at a1 a2 b1 b2
  refine ⟨?_, ?_, ?_, ?_⟩
  · intro w m next hc
    cases w
    · cases pcA <;> simp only [code, foo1, State.pc] at hc <;> cases hc <;>
        simp_all [State.holds, State.owner, heldFirst, heldSecond]
    · cases pcB <;> simp only [code, foo2, State.pc] at hc <;> cases hc <;>
        simp_all [State.holds, State.owner, heldFirst, heldSecond]
  · intro w m ok fail hc
    cases w
    · cases pcA <;> simp only [code, foo1, State.pc] at hc <;> cases hc <;>
        simp_all [State.holds, State.owner, heldFirst, heldSecond]
    · cases pcB <;> simp only [code, foo2, State.pc] at hc <;> cases hc <;>
        simp_all [State.holds, State.owner, heldFirst, heldSecond]
  · intro w m hp
    cases w <;> simp only [State.pc] at hp <;> subst hp <;> cases m <;>
      simp_all [State.holds, State.owner, heldFirst, heldSecond]
  · rintro ⟨fa, fb⟩
    simp only at fa fb
    subst fa fb
    simp only [heldFirst, heldSecond] at a1 a2 b1 b2
    simp only [State.owner]
    constructor
    · rcases o1 with _ | v
      · rfl
      · cases v <;> simp_all
    · rcases o2 with _ | v
      · rfl
      · cases v <;> simp_all

/-- C9: with the source's `lim = 10000000`, every reachable state has
`0 ≤ coun ≤ 2 * lim = 20000000 < 2 ^ 31`, so the `int` counter never leaves its range: its value
modulo `2 ^ 32` is its mathematical value, and so is the value after any further step. -/
theorem coun_no_overflow (s : State) (h : Reachable lim s) :
    (0 : Int) ≤ (s.coun : Int) ∧ s.coun ≤ 2 * lim ∧ 2 * lim = 20000000 ∧ 20000000 < 2 ^ 31 ∧
    s.coun % 2 ^ 32 = s.coun ∧
    ∀ (w : Worker) (spur : Bool), (step lim w spur s).coun < 2 ^ 31 := by
  have hb : ∀ t : State, Reachable lim t → t.coun ≤ 20000000 := by
    intro t ht
    have := inv_coun_le (reachable_inv ht)
    simpa [lim] using this
  have h1 := hb s h
  refine ⟨Int.natCast_nonneg _, by simpa [lim] using h1, by simp [lim], by norm_num, ?_, ?_⟩
  · exact Nat.mod_eq_of_lt (by omega)
  · intro w spur
    have := hb _ (reachable_step h w spur)
    omega

theorem step_pc_other (N : Nat) (w : Worker) (spur : Bool) (s : State) :
    (step N w spur s).pc (other w) = s.pc (other w) := by
  obtain ⟨pcA, pcB, iA, iB, o1, o2, c, tA, tB⟩ := s
  cases w
  · cases pcA <;>
      simp only [other, step, exec, code, foo1, State.pc, State.idx, State.owner, State.setPc,
        State.setIdx, State.setOwner, State.tmp, State.setTmp] <;>
      (try split_ifs) <;> rfl
  · cases pcB <;>
      simp only [other, step, exec, code, foo2, State.pc, State.idx, State.owner, State.setPc,
        State.setIdx, State.setOwner, State.tmp, State.setTmp] <;>
      (try split_ifs) <;> rfl

theorem drain_step (N : Nat) (w : Worker) (s : State) (h : 0 < drainRank (s.pc w)) :
    drainRank ((step N w false s).pc w) < drainRank (s.pc w) := by
  obtain ⟨pcA, pcB, iA, iB, o1, o2, c, tA, tB⟩ := s
  cases w
  · cases pcA <;>
      simp only [step, exec, code, foo1, State.pc, State.idx, State.owner, State.setPc,
        State.setIdx, State.setOwner, State.tmp, State.setTmp, drainRank] at h ⊢ <;>
      (try split_ifs) <;> simp [drainRank] at h ⊢
  · cases pcB <;>
      simp only [step, exec, code, foo2, State.pc, State.idx, State.owner, State.setPc,
        State.setIdx, State.setOwner, State.tmp, State.setTmp, drainRank] at h ⊢ <;>
      (try split_ifs) <;> simp [drainRank] at h ⊢

theorem holdsNone_of_drainRank {p : PC} (h : drainRank p = 0) : holdsNone p := by
  cases p <;> simp [drainRank, holdsNone, heldFirst, heldSecond] at h ⊢

theorem drain (N : Nat) (w : Worker) (k : Nat) (s : State) (hk : drainRank (s.pc w) ≤ k) :
    ∃ t, Relation.ReflTransGen (StepStrict N) s t ∧ holdsNone (t.pc w) := by
  induction k generalizing s with
  | zero => exact ⟨s, Relation.ReflTransGen.refl, holdsNone_of_drainRank (by omega)⟩
  | succ k ih =>
    by_cases h0 : drainRank (s.pc w) = 0
    · exact ⟨s, Relation.ReflTransGen.refl, holdsNone_of_drainRank h0⟩
    · have hlt := drain_step N w s (by omega)
      have hd : s.pc w ≠ PC.done := by
        intro hd; rw [hd] at h0; exact h0 rfl
      obtain ⟨t, ht, hn⟩ := ih (step N w false s) (by omega)
      exact ⟨t, Relation.ReflTransGen.head ⟨w, hd, rfl⟩ ht, hn⟩

theorem solo_step {N : Nat} {s : State} (h : Inv N s) (w : Worker)
    (ho : holdsNone (s.pc (other w))) (hd : s.pc w ≠ PC.done) :
    rank N ((step N w false s).pc w) ((step N w false s).idx w)
      < rank N (s.pc w) (s.idx w) := by
  obtain ⟨pcA, pcB, iA, iB, o1, o2, c, tA, tB⟩ := s
  obtain ⟨a1, a2, b2, b1, ia, ib, hc, ta, tb⟩ := h
  obtain ⟨ho1, ho2⟩ := ho
  simp only at a1 a2 b1 b2 ia ib
  cases w
  · simp only [other, State.pc] at ho1 ho2 hd
    rw [ho1] at b2
    rw [ho2] at b1
    have e1 : pcA = PC.tryFirst → o1 = none := by
      rintro rfl
      rcases o1 with _ | v
      · rfl
      · cases v <;> simp_all [heldFirst]
    have e2 : pcA = PC.trySecond → o2 = none := by
      rintro rfl
      rcases o2 with _ | v
      · rfl
      · cases v <;> simp_all [heldSecond]
    cases pcA <;>
      first
      | exact absurd rfl hd
      | (have hx := e1 rfl
         subst hx
         simp only [step, exec, code, foo1, State.pc, State.idx, State.owner, State.setPc,
           State.setIdx, State.setOwner, State.tmp, State.setTmp, rank, idxOK, and_self, if_true] at ia ⊢
         omega)
      | (have hx := e2 rfl
         subst hx
         simp only [step, exec, code, foo1, State.pc, State.idx, State.owner, State.setPc,
           State.setIdx, State.setOwner, State.tmp, State.setTmp, rank, idxOK, and_self, if_true] at ia ⊢
         omega)
      | (simp only [step, exec, code, foo1, State.pc, State.idx, State.owner, State.setPc,
           State.setIdx, State.setOwner, State.tmp, State.setTmp, rank, idxOK] at ia ⊢
         split_ifs <;> simp only [rank] <;> omega)
      | (simp only [step, exec, code, foo1, State.pc, State.idx, State.owner, State.setPc,
           State.setIdx, State.setOwner, State.tmp, State.setTmp, rank, idxOK] at ia ⊢
         omega)
  · simp only [other, State.pc] at ho1 ho2 hd
    rw [ho1] at a1
    rw [ho2] at a2
    have e1 : pcB = PC.tryFirst → o2 = none := by
      rintro rfl
      rcases o2 with _ | v
      · rfl
      · cases v <;> simp_all [heldFirst]
    have e2 : pcB = PC.trySecond → o1 = none := by
      rintro rfl
      rcases o1 with _ | v
      · rfl
      · cases v <;> simp_all [heldSecond]
    cases pcB <;>
      first
      | exact absurd rfl hd
      | (have hx := e1 rfl
         subst hx
         simp only [step, exec, code, foo2, State.pc, State.idx, State.owner, State.setPc,
           State.setIdx, State.setOwner, State.tmp, State.setTmp, rank, idxOK, and_self, if_true] at ib ⊢
         omega)
      | (have hx := e2 rfl
         subst hx
         simp only [step, exec, code, foo2, State.pc, State.idx, State.owner, State.setPc,
           State.setIdx, State.setOwner, State.tmp, State.setTmp, rank, idxOK, and_self, if_true] at ib ⊢
         omega)
      | (simp only [step, exec, code, foo2, State.pc, State.idx, State.owner, State.setPc,
           State.setIdx, State.setOwner, State.tmp, State.setTmp, rank, idxOK] at ib ⊢
         split_ifs <;> simp only [rank] <;> omega)
      | (simp only [step, exec, code, foo2, State.pc, State.idx, State.owner, State.setPc,
           State.setIdx, State.setOwner, State.tmp, State.setTmp, rank, idxOK] at ib ⊢
         omega)

theorem solo (N : Nat) (w : Worker) (k : Nat) (s : State) (h : Inv N s)
    (ho : holdsNone (s.pc (other w))) (hk : rank N (s.pc w) (s.idx w) ≤ k) :
    ∃ t, Relation.ReflTransGen (StepStrict N) s t ∧ t.pc w = PC.done ∧
      t.pc (other w) = s.pc (other w) := by
  induction k generalizing s with
  | zero =>
    refine ⟨s, Relation.ReflTransGen.refl, ?_, rfl⟩
    by_contra hd
    have hlt := solo_step h w ho hd
    omega
  | succ k ih =>
    by_cases hd : s.pc w = PC.done
    · exact ⟨s, Relation.ReflTransGen.refl, hd, rfl⟩
    · have hlt := solo_step h w ho hd
      have hpo := step_pc_other N w false s
      obtain ⟨t, ht, htd, hto⟩ := ih (step N w false s) (inv_step h w false)
        (by rw [hpo]; exact ho) (by omega)
      exact ⟨t, Relation.ReflTransGen.head ⟨w, hd, rfl⟩ ht, htd, hto.trans hpo⟩

theorem stepStrict_le (N : Nat) (s t : State) (h : StepStrict N s t) : Step N s t := by
  obtain ⟨w, hd, rfl⟩ := h
  exact ⟨w, false, hd, rfl⟩

theorem steps_of_strict {N : Nat} {s t : State}
    (h : Relation.ReflTransGen (StepStrict N) s t) : Relation.ReflTransGen (Step N) s t :=
  Relation.ReflTransGen.mono (stepStrict_le N) h

theorem inv_of_steps {N : Nat} {s t : State} (h : Inv N s)
    (hst : Relation.ReflTransGen (Step N) s t) : Inv N t := by
  induction hst with
  | refl => exact h
  | tail _ hstep ih =>
    obtain ⟨w, spur, _, rfl⟩ := hstep
    exact inv_step ih w spur

theorem can_finish {N : Nat} {s : State} (h : Inv N s) :
    ∃ t, Relation.ReflTransGen (StepStrict N) s t ∧ t.finished := by
  obtain ⟨t1, h1, hn1⟩ := drain N Worker.A _ s le_rfl
  have i1 := inv_of_steps h (steps_of_strict h1)
  obtain ⟨t2, h2, hd2, ho2⟩ := solo N Worker.B _ t1 i1 hn1 le_rfl
  have i2 := inv_of_steps i1 (steps_of_strict h2)
  have hn2 : holdsNone (t2.pc (other Worker.A)) := by
    show holdsNone (t2.pc Worker.B)
    rw [hd2]; exact ⟨rfl, rfl⟩
  obtain ⟨t3, h3, hd3, ho3⟩ := solo N Worker.A _ t2 i2 hn2 le_rfl
  refine ⟨t3, (h1.trans h2).trans h3, hd3, ?_⟩
  have : t3.pc Worker.B = t2.pc Worker.B := ho3
  exact this.trans hd2

theorem inv_finished_coun {N : Nat} {s : State} (h : Inv N s) (hf : s.finished) :
    s.coun = 2 * N ∧ s.idx Worker.A = N ∧ s.idx Worker.B = N := by
  obtain ⟨_, _, _, _, ia, ib, hc, _, _⟩ := h
  obtain ⟨fa, fb⟩ := hf
  rw [fa] at ia hc
  rw [fb] at ib hc
  simp only [idxOK, inflight] at ia ib hc
  simp only [State.idx]
  omega

theorem no_step_iff_finished (N : Nat) (s : State) :
    (∀ t, ¬ Step N s t) ↔ s.finished := by
  constructor
  · intro h
    constructor
    · by_contra hd
      exact h _ ⟨Worker.A, false, hd, rfl⟩
    · by_contra hd
      exact h _ ⟨Worker.B, false, hd, rfl⟩
  · rintro ⟨fa, fb⟩ t ⟨w, spur, hd, _⟩
    cases w
    · exact hd fa
    · exact hd fb

theorem run_toCrossed {N : Nat} (hN : 1 ≤ N) : run N init toCrossed = crossed := by
  have h0 : 0 < N := hN
  simp [run, toCrossed, step, exec, code, foo1, foo2, init, crossed, State.pc, State.idx,
    State.owner, State.setPc, State.setOwner, h0]

/-- C4, as stated, fails: in the reachable state `crossed` thread `A` holds `m1` and thread `B`
holds `m2`, and the next step of either thread is its failing second `try_lock`, after which it
still holds its first mutex. -/
theorem next_step_is_not_release :
    ¬ (∀ (N : Nat) (s : State), Reachable N s → s.holds Worker.A Mutex.m1 →
        s.holds Worker.B Mutex.m2 →
        ∀ (w : Worker) (spur : Bool), ¬ (step N w spur s).holds w (first w)) := by
  intro h
  have hr : Reachable 1 crossed := by
    have := reachable_run 1 toCrossed
    rwa [run_toCrossed le_rfl] at this
  exact h 1 crossed hr (by decide) (by decide) Worker.A false (by decide)

/-- C4, amended: from every reachable state a state is reachable in which both threads have
left their loops after `N` iterations each (with `coun = 2 * N`), even by steps without any
spurious `try_lock` failure; and in every reachable state
where `A` holds `m1` and `B` holds `m2`, each thread can step, and either it is at the `unlock`
of its `else` branch and its next step releases its mutex, or it is at its second `try_lock`,
its next step is the failure of that `try_lock`, which takes it to that `unlock`, and its step
after that releases its mutex. -/
theorem deadlock_free (N : Nat) (s : State) (h : Reachable N s) :
    (∃ t, Relation.ReflTransGen (Step N) s t ∧ Relation.ReflTransGen (StepStrict N) s t ∧
        t.finished ∧ t.coun = 2 * N ∧ t.idx Worker.A = N ∧ t.idx Worker.B = N) ∧
    (s.holds Worker.A Mutex.m1 → s.holds Worker.B Mutex.m2 →
      ∀ w : Worker, s.pc w ≠ PC.done ∧
        ((s.pc w = PC.retreat ∧ ∀ spur : Bool, ¬ (step N w spur s).holds w (first w)) ∨
         (s.pc w = PC.trySecond ∧ ∀ spur : Bool,
            (step N w spur s).pc w = PC.retreat ∧
            ∀ spur2 : Bool, ¬ (step N w spur2 (step N w spur s)).holds w (first w)))) := by
  have hi := (reachable_inv h)
  constructor
  · obtain ⟨t, ht, hf⟩ := can_finish hi
    exact ⟨t, steps_of_strict ht, ht, hf,
      inv_finished_coun (inv_of_steps hi (steps_of_strict ht)) hf⟩
  · intro hA hB w
    obtain ⟨pcA, pcB, iA, iB, o1, o2, c, tA, tB⟩ := s
    obtain ⟨a1, a2, b2, b1, ia, ib, hc, ta, tb⟩ := hi
    simp only [State.holds, State.owner] at hA hB
    subst hA hB
    simp only [true_iff, reduceCtorEq, false_iff, Bool.not_eq_true, Option.some.injEq] at a1 a2 b1 b2
    cases w
    · cases pcA <;> simp only [heldFirst, heldSecond, reduceCtorEq] at a1 a2
      · refine ⟨by simp [State.pc], Or.inr ⟨rfl, ?_⟩⟩
        intro spur
        simp [step, exec, code, foo1, State.pc, State.owner, State.setPc, State.setOwner,
          State.holds, first]
      · refine ⟨by simp [State.pc], Or.inl ⟨rfl, ?_⟩⟩
        intro spur
        simp [step, exec, code, foo1, State.pc, State.owner, State.setPc, State.setOwner,
          State.holds, first]
    · cases pcB <;> simp only [heldFirst, heldSecond, reduceCtorEq] at b1 b2
      · refine ⟨by simp [State.pc], Or.inr ⟨rfl, ?_⟩⟩
        intro spur
        simp [step, exec, code, foo2, State.pc, State.owner, State.setPc, State.setOwner,
          State.holds, first]
      · refine ⟨by simp [State.pc], Or.inl ⟨rfl, ?_⟩⟩
        intro spur
        simp [step, exec, code, foo2, State.pc, State.owner, State.setPc, State.setOwner,
          State.holds, first]

theorem livelock_step (n : Nat) :
    (livelock n).pc (turn n) ≠ PC.done ∧
      livelock (n + 1) = step 1000 (turn n) false (livelock n) := by
  match n with
  | 0 => exact ⟨by decide, by decide⟩
  | 1 => exact ⟨by decide, by decide⟩
  | n + 2 =>
    have h1 : (n + 1) % 6 = (n % 6 + 1) % 6 := by omega
    have h2 : turn (n + 2) = turn (n % 6) := by
      unfold turn
      have : (n + 2) % 2 = (n % 6) % 2 := by omega
      rw [this]
    have hk : n % 6 < 6 := Nat.mod_lt _ (by norm_num)
    show (livelockCycle (n % 6)).pc (turn (n + 2)) ≠ PC.done ∧
      livelockCycle ((n + 1) % 6) = step 1000 (turn (n + 2)) false (livelockCycle (n % 6))
    rw [h1, h2]
    generalize n % 6 = k at hk
    interval_cases k <;> exact ⟨by decide, by decide⟩

/-- C6, as stated, fails: for `N = 1000` there is an infinite execution of the step relation
from the initial state, namely the strict alternation `A, B, A, B, ...` in which no `try_lock`
fails spuriously. -/
theorem livelock_exists :
    ∃ σ : Nat → State, σ 0 = init ∧ (∀ n, Step 1000 (σ n) (σ (n + 1))) ∧
      ∀ n, σ (n + 1) = step 1000 (turn n) false (σ n) :=
  ⟨livelock, rfl, fun n => ⟨turn n, false, (livelock_step n).1, (livelock_step n).2⟩,
    fun n => (livelock_step n).2⟩

/-- C6, amended: for `N = 1000`, from every reachable state an execution can terminate, that
is reach (even without spurious `try_lock` failures) a state from which no step is possible,
with `coun = 2000`; and every reachable state from which no step is possible has both threads
out of their loops and `coun = 2000`. -/
theorem termination_possible (s : State) (h : Reachable 1000 s) :
    (∃ t, Relation.ReflTransGen (Step 1000) s t ∧ Relation.ReflTransGen (StepStrict 1000) s t ∧
        (∀ u, ¬ Step 1000 t u) ∧ t.coun = 2000) ∧
    ((∀ t, ¬ Step 1000 s t) → s.finished ∧ s.coun = 2000) := by
  have hi := (reachable_inv h)
  constructor
  · obtain ⟨t, ht, hf⟩ := can_finish hi
    exact ⟨t, steps_of_strict ht, ht, (no_step_iff_finished 1000 t).2 hf,
      (inv_finished_coun (inv_of_steps hi (steps_of_strict ht)) hf).1⟩
  · intro hs
    have hf := (no_step_iff_finished 1000 s).1 hs
    exact ⟨hf, (inv_finished_coun hi hf).1⟩

theorem crossed_stuck (N : Nat) (w : Worker) (spur : Bool) :
    stepNoRetreat N w spur crossed = crossed := by
  cases w <;> simp [stepNoRetreat, exec, codeNoRetreat, foo1NoRetreat, foo2NoRetreat, crossed,
    State.pc, State.owner, State.setPc]

theorem crossed_closed (N : Nat) (t : State)
    (h : Relation.ReflTransGen (StepNoRetreat N) crossed t) : t = crossed := by
  induction h with
  | refl => rfl
  | tail _ hst ih =>
    obtain ⟨w, spur, _, rfl⟩ := hst
    rw [ih]
    exact crossed_stuck N w spur

/-- C7: in the variant without release on failure, for every `N ≥ 1` the state in which `A`
holds `m1` and `B` holds `m2` is reachable (by two steps of `A` and two of `B`, none of them a
spurious failure), both threads can still step there, every step of
either thread leaves the state unchanged, and so every state reachable from it has the same
`coun` and has neither thread out of its loop. -/
theorem deadlock_without_retreat (N : Nat) (hN : 1 ≤ N) :
    ∃ s : State, Relation.ReflTransGen (StepNoRetreat N) init s ∧
      s = stepNoRetreat N Worker.B false (stepNoRetreat N Worker.B false
            (stepNoRetreat N Worker.A false (stepNoRetreat N Worker.A false init))) ∧
      s.holds Worker.A Mutex.m1 ∧ s.holds Worker.B Mutex.m2 ∧
      (∀ w : Worker, s.pc w ≠ PC.done) ∧
      (∀ (w : Worker) (spur : Bool), stepNoRetreat N w spur s = s) ∧
      ∀ t : State, Relation.ReflTransGen (StepNoRetreat N) s t →
        t = s ∧ ¬ s.coun < t.coun ∧ ¬ t.finished := by
  have h0 : 0 < N := hN
  refine ⟨crossed, ?_, ?_, by decide, by decide, ?_, crossed_stuck N, ?_⟩
  · have s1 : StepNoRetreat N init
        { pcA := .tryFirst, pcB := .forTest, iA := 0, iB := 0,
          own1 := none, own2 := none, coun := 0, tmpA := 0, tmpB := 0 } :=
      ⟨Worker.A, false, by decide, by
        simp [stepNoRetreat, exec, codeNoRetreat, foo1NoRetreat, foo1, init, State.pc,
          State.idx, State.setPc, h0]⟩
    have s2 : StepNoRetreat N
        { pcA := .tryFirst, pcB := .forTest, iA := 0, iB := 0,
          own1 := none, own2 := none, coun := 0, tmpA := 0, tmpB := 0 }
        { pcA := .trySecond, pcB := .forTest, iA := 0, iB := 0,
          own1 := some .A, own2 := none, coun := 0, tmpA := 0, tmpB := 0 } :=
      ⟨Worker.A, false, by decide, by
        simp [stepNoRetreat, exec, codeNoRetreat, foo1NoRetreat, foo1, State.pc,
          State.owner, State.setOwner, State.setPc]⟩
    have s3 : StepNoRetreat N
        { pcA := .trySecond, pcB := .forTest, iA := 0, iB := 0,
          own1 := some .A, own2 := none, coun := 0, tmpA := 0, tmpB := 0 }
        { pcA := .trySecond, pcB := .tryFirst, iA := 0, iB := 0,
          own1 := some .A, own2 := none, coun := 0, tmpA := 0, tmpB := 0 } :=
      ⟨Worker.B, false, by decide, by
        simp [stepNoRetreat, exec, codeNoRetreat, foo2NoRetreat, foo2, State.pc,
          State.idx, State.setPc, h0]⟩
    have s4 : StepNoRetreat N
        { pcA := .trySecond, pcB := .tryFirst, iA := 0, iB := 0,
          own1 := some .A, own2 := none, coun := 0, tmpA := 0, tmpB := 0 } crossed :=
      ⟨Worker.B, false, by decide, by
        simp [stepNoRetreat, exec, codeNoRetreat, foo2NoRetreat, foo2, State.pc,
          State.owner, State.setOwner, State.setPc, crossed]⟩
    exact (((Relation.ReflTransGen.single s1).tail s2).tail s3).tail s4
  · simp [stepNoRetreat, exec, codeNoRetreat, foo1NoRetreat, foo2NoRetreat, foo1, foo2, init,
      crossed, State.pc, State.idx, State.owner, State.setPc, State.setOwner, h0]
  · intro w
    cases w <;> decide
  · intro t ht
    have := crossed_closed N t ht
    subst this
    exact ⟨rfl, lt_irrefl _, by decide⟩

theorem reachable_crossed : Reachable 1 crossed := by
  have := reachable_run 1 toCrossed
  rwa [run_toCrossed le_rfl] at this

/-- Witness for C1: after three steps of `A` alone, `A` stands at the load of `++coun` and
holds both mutexes. -/
theorem mutual_exclusion_witness :
    Reachable 1 (run 1 init toIncr) ∧
      (code Worker.A ((run 1 init toIncr).pc Worker.A)).isInc = true ∧
      (run 1 init toIncr).holds Worker.A Mutex.m1 ∧
      (run 1 init toIncr).holds Worker.A Mutex.m2 :=
  ⟨reachable_run 1 toIncr, by decide,
    (mutual_exclusion 1 (run 1 init toIncr) (reachable_run 1 toIncr)).2.1 Worker.A (by decide)⟩

/-- Witness for C2: with `N = 1`, running `A` and then `B` to the end gives
`coun = 2`. -/
theorem final_count_witness :
    Reachable 1 (run 1 init fullRun) ∧ (run 1 init fullRun).finished ∧
      (run 1 init fullRun).coun = 2 * 1 :=
  ⟨reachable_run 1 fullRun, by decide,
    (final_count 1 (run 1 init fullRun) (reachable_run 1 fullRun) (by decide)).1⟩

/-- Witness for C3: in the full run with `N = 1`, thread `A` has left its
loop and has executed `++coun` once. -/
theorem no_skipped_increments_witness :
    (run 1 init fullRun).pc Worker.A = PC.done ∧ incrs 1 Worker.A init fullRun = 1 :=
  ⟨by decide, (no_skipped_increments 1 fullRun).2.1 Worker.A (by decide)⟩

/-- Witness for C4: from the state where `A` holds `m1` and `B` holds `m2`, with
`N = 1`, a state with both threads out of their loops and `coun = 2` is reachable. -/
theorem deadlock_free_witness :
    Reachable 1 crossed ∧
      ∃ t, Relation.ReflTransGen (Step 1) crossed t ∧
        Relation.ReflTransGen (StepStrict 1) crossed t ∧ t.finished ∧ t.coun = 2 * 1 ∧
        t.idx Worker.A = 1 ∧ t.idx Worker.B = 1 :=
  ⟨reachable_crossed, (deadlock_free 1 crossed reachable_crossed).1⟩

/-- Witness for C5: in the state where `A` holds `m1` and `B` holds `m2`, the
second `try_lock` of `A` fails and takes `A` to the `unlock` of its `else` branch. -/
theorem hold_and_retreat_witness :
    Reachable 1 crossed ∧ crossed.pc Worker.A = PC.trySecond ∧
      tryFails crossed (second Worker.A) false ∧
      step 1 Worker.A false crossed = crossed.setPc Worker.A PC.retreat :=
  ⟨reachable_crossed, rfl, Or.inl (by decide),
    ((hold_and_retreat 1 crossed reachable_crossed Worker.A).1 rfl).2.2 false
      (Or.inl (by decide))⟩

/-- Witness for C6: from the initial state with `N = 1000` a state without
successor and with `coun = 2000` is reachable. -/
theorem termination_possible_witness :
    Reachable 1000 init ∧
      ∃ t, Relation.ReflTransGen (Step 1000) init t ∧
        Relation.ReflTransGen (StepStrict 1000) init t ∧
        (∀ u, ¬ Step 1000 t u) ∧ t.coun = 2000 :=
  ⟨Relation.ReflTransGen.refl, (termination_possible init Relation.ReflTransGen.refl).1⟩

/-- Witness for C7, at `N = 1`. -/
theorem deadlock_without_retreat_witness :
    (1 : Nat) ≤ 1 ∧ ∃ s : State, Relation.ReflTransGen (StepNoRetreat 1) init s ∧
      s = stepNoRetreat 1 Worker.B false (stepNoRetreat 1 Worker.B false
            (stepNoRetreat 1 Worker.A false (stepNoRetreat 1 Worker.A false init))) ∧
      s.holds Worker.A Mutex.m1 ∧ s.holds Worker.B Mutex.m2 ∧
      (∀ w : Worker, s.pc w ≠ PC.done) ∧
      (∀ (w : Worker) (spur : Bool), stepNoRetreat 1 w spur s = s) ∧
      ∀ t : State, Relation.ReflTransGen (StepNoRetreat 1) s t →
        t = s ∧ ¬ s.coun < t.coun ∧ ¬ t.finished :=
  ⟨le_rfl, deadlock_without_retreat 1 le_rfl⟩

/-- Witness for C8: at the end of the full run with `N = 1` both mutexes are
free. -/
theorem lock_usage_safe_witness :
    Reachable 1 (run 1 init fullRun) ∧ (run 1 init fullRun).finished ∧
      (run 1 init fullRun).owner Mutex.m1 = none ∧ (run 1 init fullRun).owner Mutex.m2 = none :=
  ⟨reachable_run 1 fullRun, by decide,
    (lock_usage_safe 1 (run 1 init fullRun) (reachable_run 1 fullRun)).2.2.2 (by decide)⟩

/-- Witness for C9: with the source's `lim`, after thread `A` has executed the load of its
first `++coun` the counter is within range. -/
theorem coun_no_overflow_witness :
    Reachable lim (run lim init (toIncr ++ [(Worker.A, false)])) ∧
      (run lim init (toIncr ++ [(Worker.A, false)])).coun ≤ 2 * lim ∧
      (run lim init (toIncr ++ [(Worker.A, false)])).coun % 2 ^ 32
        = (run lim init (toIncr ++ [(Worker.A, false)])).coun :=
  ⟨reachable_run lim _,
    (coun_no_overflow _ (reachable_run lim _)).2.1,
    (coun_no_overflow _ (reachable_run lim _)).2.2.2.2.1⟩

end Parallel

/-! ## Theorems about `threaded.cpp` -/

namespace Threaded

theorem helper_eq (t walks : Nat) : helper t walks = walks + t := by
  unfold helper
  induction t with
  | zero => simp
  | succ t ih => rw [List.range_succ, List.foldl_append, ih]; simp [random_walk]; omega

theorem threads_eq (nT iter : Nat) :
    (List.range nT).foldl (fun acc _ => helper iter acc) 0 = nT * iter := by
  induction nT with
  | zero => simp
  | succ n ih =>
    rw [List.range_succ, List.foldl_append, ih]
    simp [helper_eq]
    ring

/-- C10: for a thread count `nT = 0` the computation of `iter` divides by zero; for every
`nT ≥ 1` the threads together perform `nT * (1000000 / nT)` random walks, which is at most
`walk_ub = 1000000`, more than `1000000 - nT`, and equal to `1000000` exactly when `nT` divides
`1000000`, while the printed average divides by `walk_ub`. -/
theorem walk_split :
    main 0 = .error .divisionByZero ∧
    ∀ nT : Nat, 1 ≤ nT → ∃ out : Output, main nT = .ok out ∧
      out.walks = nT * (1000000 / nT) ∧
      out.walks ≤ walk_ub ∧ walk_ub = 1000000 ∧
      (1000000 : Int) - (nT : Int) < (out.walks : Int) ∧
      (out.walks = 1000000 ↔ nT ∣ 1000000) ∧
      out.divisor = walk_ub := by
  refine ⟨rfl, ?_⟩
  intro nT h
  have hne : nT ≠ 0 := by omega
  refine ⟨{ walks := nT * (1000000 / nT), divisor := walk_ub }, ?_, rfl, ?_, rfl, ?_, ?_, rfl⟩
  · simp only [main, if_neg hne, threads_eq]
    rfl
  · exact Nat.mul_div_le 1000000 nT
  · have h1 := Nat.div_add_mod 1000000 nT
    have h2 := Nat.mod_lt 1000000 (show 0 < nT by omega)
    show (1000000 : Int) - (nT : Int) < ((nT * (1000000 / nT) : Nat) : Int)
    omega
  · show nT * (1000000 / nT) = 1000000 ↔ nT ∣ 1000000
    constructor
    · intro he
      exact ⟨1000000 / nT, he.symm⟩
    · intro hd
      exact Nat.mul_div_cancel' hd

/-- Witness for C10: with three threads, 999999 walks are performed. -/
theorem walk_split_witness :
    (1 : Nat) ≤ 3 ∧ ∃ out : Output, main 3 = .ok out ∧
      out.walks = 3 * (1000000 / 3) ∧
      out.walks ≤ walk_ub ∧ walk_ub = 1000000 ∧
      (1000000 : Int) - ((3 : Nat) : Int) < (out.walks : Int) ∧
      (out.walks = 1000000 ↔ 3 ∣ 1000000) ∧
      out.divisor = walk_ub :=
  ⟨by decide, walk_split.2 3 (by decide)⟩

end Threaded
